import Mathlib

/-!
Verification of the minesweeper deduction agent in `src/lib.rs`
(`mod game_logic`): the `Sentence` constraint type, the `MinesweeperAI`
knowledge base with its `add_knowledge` inference fixpoint, the move
selectors, and the `Minesweeper` board generator.

Modelling conventions:
* `HashSet<(usize, usize)>` becomes `Finset Cell`; Rust's `HashSet`
  equality is set equality, which matches `Finset` equality.
* `Vec<Sentence>` becomes `List Sentence` (insertion order preserved).
* `usize` arithmetic becomes `Nat`; a `usize` subtraction that would
  underflow aborts the program in the shipped (debug) build, so every
  operation that can underflow returns `Option` and yields `none` there.
  `saturating_sub 1` is exactly `Nat` subtraction by one.
* The fixpoint `while changes` loop of `add_knowledge` need not
  terminate, so it is given explicit fuel; exhausting the fuel while the
  change flag is still set yields `none`.
* Iteration over a `HashSet` happens in an unspecified order; every such
  loop in the source has an order-independent effect (inserting into
  sets, removing staged cells from every sentence), and is modelled by
  the corresponding order-independent set operation.
* The random number generator is modelled as an explicit input: a list
  of draws for board generation, a single draw for `make_random_move`.
-/

abbrev Cell : Type := ℕ × ℕ

/-- Equality decision for `Option` that reduces in the kernel even when
the payload equality holds only propositionally (the auto-derived
instance rewrites the `Decidable` type along that proof and gets stuck);
used so that concrete runs of the embedded functions close by `decide`. -/
instance (priority := 2000) instDecEqOptionK {α : Type} [DecidableEq α] :
    DecidableEq (Option α) := fun a b =>
  match a, b with
  | none, none => isTrue rfl
  | some x, some y => decidable_of_iff (x = y) (by simp)
  | none, some _ => isFalse (fun h => Option.noConfusion h)
  | some _, none => isFalse (fun h => Option.noConfusion h)

/-- The `Sentence` struct of `game_logic`: a set of board cells and the
count of the number of those cells which are mines. -/
structure Sentence where
  cells : Finset Cell
  count : ℕ

instance : DecidableEq Sentence := fun a b =>
  decidable_of_iff (a.cells = b.cells ∧ a.count = b.count)
    (by cases a; cases b; simp)

/-- `Sentence::known_mines`: all cells if the count equals the set size,
else the empty set. -/
def Sentence.known_mines (s : Sentence) : Finset Cell :=
  if s.count = s.cells.card then s.cells else ∅

/-- `Sentence::known_safes`: all cells if the count is zero, else empty. -/
def Sentence.known_safes (s : Sentence) : Finset Cell :=
  if s.count = 0 then s.cells else ∅

/-- `Sentence::mark_safe`: remove the cell if present; the count is
unchanged. -/
def Sentence.mark_safe (s : Sentence) (c : Cell) : Sentence :=
  if c ∈ s.cells then ⟨s.cells.erase c, s.count⟩ else s

/-- `Sentence::mark_mine`: remove the cell if present and decrement the
count; decrementing a zero count underflows `usize` and aborts. -/
def Sentence.mark_mine (s : Sentence) (c : Cell) : Option Sentence :=
  if c ∈ s.cells then
    (if s.count = 0 then none else some ⟨s.cells.erase c, s.count - 1⟩)
  else some s

/-- The `MinesweeperAI` struct: board dimensions, the moves made, the
cells known to be mines or safe, and the knowledge base of sentences. -/
structure MinesweeperAI where
  height : ℕ
  width : ℕ
  moves_made : Finset Cell
  known_mines : Finset Cell
  known_safes : Finset Cell
  knowledge : List Sentence

instance : DecidableEq MinesweeperAI := fun a b =>
  decidable_of_iff (a.height = b.height ∧ a.width = b.width ∧
      a.moves_made = b.moves_made ∧ a.known_mines = b.known_mines ∧
      a.known_safes = b.known_safes ∧ a.knowledge = b.knowledge)
    (by cases a; cases b; simp)

/-- `MinesweeperAI::new`: empty knowledge for an `height × width` board. -/
def MinesweeperAI.new (height width : ℕ) : MinesweeperAI :=
  ⟨height, width, ∅, ∅, ∅, []⟩

/-- `MinesweeperAI::mark_safe`: add the cell to `known_safes` and apply
`Sentence::mark_safe` to every sentence. -/
def MinesweeperAI.mark_safe (s : MinesweeperAI) (c : Cell) : MinesweeperAI :=
  { s with known_safes := insert c s.known_safes,
           knowledge := s.knowledge.map (fun sen => sen.mark_safe c) }

/-- Apply `Sentence::mark_mine c` to every sentence of a list. -/
def markMineList (c : Cell) : List Sentence → Option (List Sentence)
  | [] => some []
  | sen :: rest => do
      let sen' ← sen.mark_mine c
      let rest' ← markMineList c rest
      pure (sen' :: rest')

/-- `MinesweeperAI::mark_mine`: add the cell to `known_mines` and apply
`Sentence::mark_mine` to every sentence. -/
def MinesweeperAI.mark_mine (s : MinesweeperAI) (c : Cell) :
    Option MinesweeperAI := do
  let kn ← markMineList c s.knowledge
  pure { s with known_mines := insert c s.known_mines, knowledge := kn }

/-- The inclusive range `a..=b` of Rust, as an ascending list. -/
def rangeIncl (a b : ℕ) : List ℕ :=
  (List.range (b + 1 - a)).map (a + ·)

/-- The cell traversal order of the nested neighbourhood loops in
`add_knowledge`: rows `cell.0-1 ..= min (cell.0+1) (height-1)`, columns
`cell.1-1 ..= min (cell.1+1) (width-1)`.  The cell itself is in the list
and is skipped by the scan, exactly as the source `continue`s on it. -/
def neighborsList (h w : ℕ) (cell : Cell) : List Cell :=
  (rangeIncl (cell.1 - 1) (min (cell.1 + 1) (h - 1))).foldr
    (fun i acc =>
      ((rangeIncl (cell.2 - 1) (min (cell.2 + 1) (w - 1))).map
        (fun j => (i, j))) ++ acc) []

/-- The body of the neighbourhood loop of `add_knowledge` (steps of
lib.rs lines 211-229): skip the cell itself, insert undetermined
neighbours into the accumulated set, and decrement the local count for
every known mine (a decrement of zero underflows and aborts). -/
def scanNbhd (s : MinesweeperAI) (cell : Cell) :
    List Cell → Finset Cell × ℕ → Option (Finset Cell × ℕ)
  | [], acc => some acc
  | c :: rest, acc =>
    if c = cell then scanNbhd s cell rest acc
    else
      let set' : Finset Cell :=
        if c ∉ s.moves_made ∧ c ∉ s.known_safes ∧ c ∉ s.known_mines then
          insert c acc.1
        else acc.1
      if c ∈ s.known_mines then
        (if acc.2 = 0 then none else scanNbhd s cell rest (set', acc.2 - 1))
      else scanNbhd s cell rest (set', acc.2)

/-- Steps 1-3 of `MinesweeperAI::add_knowledge`: record the move, mark
the cell safe, scan the neighbourhood and, if the resulting cell set is
non-empty, append the new sentence to the knowledge base. -/
def addKnowledgeCore (s : MinesweeperAI) (cell : Cell) (count : ℕ) :
    Option MinesweeperAI :=
  let s1 : MinesweeperAI := { s with moves_made := insert cell s.moves_made }
  let s2 := s1.mark_safe cell
  match scanNbhd s2 cell (neighborsList s2.height s2.width cell) (∅, count) with
  | none => none
  | some (set_cells, count') =>
      some { s2 with
        knowledge :=
          if set_cells = ∅ then s2.knowledge
          else s2.knowledge ++ [⟨set_cells, count'⟩] }

/-- The union of `known_safes` over a list of sentences: the set of
cells the extraction step of the fixpoint stages as safe. -/
def listStagedSafes : List Sentence → Finset Cell
  | [] => ∅
  | sen :: rest => sen.known_safes ∪ listStagedSafes rest

/-- The union of `known_mines` over a list of sentences: the set of
cells the extraction step of the fixpoint stages as mines. -/
def listStagedMines : List Sentence → Finset Cell
  | [] => ∅
  | sen :: rest => sen.known_mines ∪ listStagedMines rest

/-- Apply `mark_mine` for every staged mine cell to every sentence.  The
source iterates the staged cells in `HashSet` order and each application
removes one cell and decrements the count once; the order-independent
result removes `cells ∩ staged` and decrements by its size, aborting
exactly when the decrements would drive the count below zero. -/
def reduceMines (staged : Finset Cell) : List Sentence → Option (List Sentence)
  | [] => some []
  | sen :: rest =>
    if (sen.cells ∩ staged).card ≤ sen.count then do
      let rest' ← reduceMines staged rest
      pure (⟨sen.cells \ staged, sen.count - (sen.cells ∩ staged).card⟩ :: rest')
    else none

/-- One ordered pair of the subset-inference step (lib.rs lines
271-284): skip equal sentences, and when `s2.cells ⊆ s1.cells` with a
non-empty difference push the derived sentence
`(s1.cells − s2.cells, s1.count − s2.count)`; the count subtraction is
`usize` and aborts on underflow. -/
def derivePair (s1 s2 : Sentence) : Option (List Sentence) :=
  if s1 = s2 then some []
  else if s2.cells ⊆ s1.cells then
    (if s1.cells \ s2.cells = ∅ then some []
     else if s2.count ≤ s1.count then
       some [⟨s1.cells \ s2.cells, s1.count - s2.count⟩]
     else none)
  else some []

/-- The inner loop of the subset-inference step: one `s1` against every
`s2` of the snapshot, in order. -/
def deriveRow (s1 : Sentence) : List Sentence → Option (List Sentence)
  | [] => some []
  | s2 :: rest => do
      let a ← derivePair s1 s2
      let b ← deriveRow s1 rest
      pure (a ++ b)

/-- The outer loop of the subset-inference step: every `s1` of the
snapshot against the whole snapshot. -/
def deriveAll : List Sentence → List Sentence → Option (List Sentence)
  | _, [] => some []
  | snapshot, s1 :: rest => do
      let a ← deriveRow s1 snapshot
      let b ← deriveAll snapshot rest
      pure (a ++ b)

/-- Step 5 of `add_knowledge`: all sentences derivable by the subset
method from the current knowledge snapshot. -/
def deriveNew (snapshot : List Sentence) : Option (List Sentence) :=
  deriveAll snapshot snapshot

/-- One iteration of the `while changes` loop of `add_knowledge`:
extract trivially known safe and mine cells from every sentence, apply
the staged marks globally (safes first, then mines), prune empty
sentences, run the subset-inference step and append its derivations.
The returned flag is the `changes` flag of the source: set when some
sentence staged a non-empty set or some derivation was pushed. -/
def passOnce (s : MinesweeperAI) : Option (MinesweeperAI × Bool) :=
  let ss := listStagedSafes s.knowledge
  let sm := listStagedMines s.knowledge
  let changed1 : Bool := if ss = ∅ ∧ sm = ∅ then false else true
  let s1 : MinesweeperAI :=
    { s with known_safes := s.known_safes ∪ ss,
             knowledge := s.knowledge.map (fun sen => ⟨sen.cells \ ss, sen.count⟩) }
  match reduceMines sm s1.knowledge with
  | none => none
  | some kn =>
    let s2 : MinesweeperAI :=
      { s1 with known_mines := s1.known_mines ∪ sm, knowledge := kn }
    let s3 : MinesweeperAI :=
      { s2 with knowledge := s2.knowledge.filter (fun sen => !(decide (sen.cells = ∅))) }
    match deriveNew s3.knowledge with
    | none => none
    | some derived =>
        some ({ s3 with knowledge := s3.knowledge ++ derived },
              changed1 || (if derived = [] then false else true))

/-- The `while changes` loop, with fuel: run a pass, stop when its
change flag is clear, otherwise continue on remaining fuel; exhausting
the fuel while the flag is still set yields `none`. -/
def loopAux : ℕ → MinesweeperAI → Option MinesweeperAI
  | 0, s =>
    (match passOnce s with
     | none => none
     | some (s', ch) => if ch then none else some s')
  | fuel + 1, s =>
    (match passOnce s with
     | none => none
     | some (s', ch) => if ch then loopAux fuel s' else some s')

/-- `MinesweeperAI::add_knowledge`: evidence ingestion followed by the
inference fixpoint loop. -/
def addKnowledge (fuel : ℕ) (s : MinesweeperAI) (cell : Cell) (count : ℕ) :
    Option MinesweeperAI :=
  match addKnowledgeCore s cell count with
  | none => none
  | some s' => loopAux fuel s'

/-- One board row `[(i,0), …, (i,w-1)]` in the column order of the move
selector loops. -/
def rowList (i : ℕ) : ℕ → List Cell
  | 0 => []
  | w + 1 => rowList i w ++ [(i, w)]

/-- All board cells in the row-major order of the nested
`for i in 0..height, for j in 0..width` loops. -/
def gridList : ℕ → ℕ → List Cell
  | 0, _ => []
  | h + 1, w => gridList h w ++ rowList h w

/-- `MinesweeperAI::make_safe_move`: the first cell in row-major order
that is not a move already made and is known safe. -/
def MinesweeperAI.make_safe_move (s : MinesweeperAI) : Option Cell :=
  (gridList s.height s.width).find?
    (fun c => decide (c ∉ s.moves_made ∧ c ∈ s.known_safes))

/-- The `random_moves` vector of `MinesweeperAI::make_random_move`: all
cells neither played nor known to be mines, in row-major order. -/
def MinesweeperAI.random_candidates (s : MinesweeperAI) : List Cell :=
  (gridList s.height s.width).filter
    (fun c => decide (c ∉ s.moves_made ∧ c ∉ s.known_mines))

/-- `MinesweeperAI::make_random_move`: `None` on an empty candidate
list, otherwise the candidate selected by the random draw `k` (the
source chooses an index uniformly; `k % length` ranges over exactly the
indices `choose` can return). -/
def MinesweeperAI.make_random_move (s : MinesweeperAI) (k : ℕ) : Option Cell :=
  let cs := s.random_candidates
  if h : cs = [] then none
  else some (cs.get ⟨k % cs.length, Nat.mod_lt _ (List.length_pos.mpr h)⟩)

/-- The `Minesweeper` game struct: dimensions, the mine set, the flagged
mines and the boolean board. -/
structure Minesweeper where
  height : ℕ
  width : ℕ
  mines : Finset Cell
  mines_found : Finset Cell
  board : List (List Bool)

instance : DecidableEq Minesweeper := fun a b =>
  decidable_of_iff (a.height = b.height ∧ a.width = b.width ∧
      a.mines = b.mines ∧ a.mines_found = b.mines_found ∧ a.board = b.board)
    (by cases a; cases b; simp)

/-- `board[i][j]` as a partial lookup (`none` out of bounds). -/
def boardGet (b : List (List Bool)) (i j : ℕ) : Option Bool :=
  match b.get? i with
  | none => none
  | some row => row.get? j

/-- `board[i][j] = true` on the row `i`, column `j`. -/
def boardSet (b : List (List Bool)) (i j : ℕ) : List (List Bool) :=
  b.set i (((b.get? i).getD []).set j true)

/-- `Minesweeper::is_mine`: the board entry of the cell. -/
def Minesweeper.is_mine (g : Minesweeper) (c : Cell) : Option Bool :=
  boardGet g.board c.1 c.2

/-- The mine-placement loop of `Minesweeper::new`: while fewer than `n`
mines are placed, consume one random draw, reduce it into the board
bounds (as `gen_range(0..height)` and `gen_range(0..width)` do), and
place a mine there when the square is still free.  Running out of draws
while the loop still needs one yields `none`. -/
def minesNewGo (h w n : ℕ) : List (ℕ × ℕ) → Minesweeper → Option Minesweeper
  | [], m => if m.mines.card < n then none else some m
  | d :: rest, m =>
    if m.mines.card < n then
      let i := d.1 % h
      let j := d.2 % w
      if boardGet m.board i j = some true then minesNewGo h w n rest m
      else
        minesNewGo h w n rest
          { m with mines := insert (i, j) m.mines, board := boardSet m.board i j }
    else some m

/-- `Minesweeper::new`: an all-false `height × width` board, then the
mine-placement loop driven by the random draws. -/
def Minesweeper.new (h w n : ℕ) (draws : List (ℕ × ℕ)) : Option Minesweeper :=
  minesNewGo h w n draws ⟨h, w, ∅, ∅, List.replicate h (List.replicate w false)⟩

/-- A sequence of direct `mark_safe` / `mark_mine` calls on the agent:
`(true, c)` marks `c` safe, `(false, c)` marks `c` a mine. -/
def applyMarks : MinesweeperAI → List (Bool × Cell) → Option MinesweeperAI
  | s, [] => some s
  | s, (true, c) :: rest => applyMarks (s.mark_safe c) rest
  | s, (false, c) :: rest => do
      let s' ← s.mark_mine c
      applyMarks s' rest

lemma mark_mine_sets (s : MinesweeperAI) (c : Cell) (s' : MinesweeperAI)
    (h : s.mark_mine c = some s') :
    s'.known_mines = insert c s.known_mines ∧ s'.known_safes = s.known_safes := by
  unfold MinesweeperAI.mark_mine at h
  cases hk : markMineList c s.knowledge with
  | none => rw [hk] at h; simp at h
  | some kn =>
      rw [hk] at h
      simp only [Option.bind_eq_bind, Option.some_bind, Option.pure_def,
        Option.some.injEq] at h
      subst h; exact ⟨rfl, rfl⟩

lemma applyMarks_known : ∀ (ops : List (Bool × Cell)) (s s' : MinesweeperAI),
    applyMarks s ops = some s' →
    (∀ x : Cell, x ∈ s'.known_safes ↔ x ∈ s.known_safes ∨ (true, x) ∈ ops) ∧
    (∀ x : Cell, x ∈ s'.known_mines ↔ x ∈ s.known_mines ∨ (false, x) ∈ ops)
  | [], s, s', h => by
      simp only [applyMarks, Option.some.injEq] at h
      subst h
      simp
  | (true, c) :: rest, s, s', h => by
      simp only [applyMarks] at h
      obtain ⟨ihs, ihm⟩ := applyMarks_known rest (s.mark_safe c) s' h
      constructor
      · intro x
        rw [ihs x]
        simp only [MinesweeperAI.mark_safe, Finset.mem_insert, List.mem_cons,
          Prod.mk.injEq, true_and, false_and, or_false, eq_comm (a := c)]
        tauto
      · intro x
        rw [ihm x]
        simp [MinesweeperAI.mark_safe]
  | (false, c) :: rest, s, s', h => by
      simp only [applyMarks] at h
      cases hm : s.mark_mine c with
      | none => rw [hm] at h; simp at h
      | some s1 =>
          rw [hm] at h
          simp only [Option.bind_eq_bind, Option.some_bind] at h
          obtain ⟨ihs, ihm⟩ := applyMarks_known rest s1 s' h
          obtain ⟨h1, h2⟩ := mark_mine_sets s c s1 hm
          constructor
          · intro x
            rw [ihs x, h2]
            simp
          · intro x
            rw [ihm x, h1]
            simp only [Finset.mem_insert, List.mem_cons, Prod.mk.injEq,
              true_and, false_and, or_false, eq_comm (a := c)]
            tauto

/-- Claim C3 (amended): the mark operations do not police disjointness,
so the invariant holds only for mark sequences that never mark one cell
both ways: for every state reached from `MinesweeperAI.new` by a
sequence of `mark_safe` / `mark_mine` calls in which no cell is passed
to both operations, `known_safes ∩ known_mines = ∅`. -/
theorem C3_disjoint_of_consistent_marks (h w : ℕ) (ops : List (Bool × Cell))
    (s' : MinesweeperAI) (happ : applyMarks (MinesweeperAI.new h w) ops = some s')
    (hdisj : ∀ c : Cell, (true, c) ∈ ops → (false, c) ∉ ops) :
    s'.known_safes ∩ s'.known_mines = ∅ := by
  rw [Finset.eq_empty_iff_forall_not_mem]
  intro x hx
  obtain ⟨hs, hm⟩ := Finset.mem_inter.mp hx
  obtain ⟨ihs, ihm⟩ := applyMarks_known ops (MinesweeperAI.new h w) s' happ
  have h1 := (ihs x).mp hs
  have h2 := (ihm x).mp hm
  simp only [MinesweeperAI.new, Finset.not_mem_empty, false_or] at h1 h2
  exact hdisj x h1 h2

/-- Witness for C3: a safe mark on `(0,0)` and a mine mark on `(0,1)`
leave the two certainty sets disjoint. -/
theorem C3_disjoint_witness :
    ({ height := 1, width := 2, moves_made := ∅, known_mines := {(0,1)},
       known_safes := {(0,0)}, knowledge := [] } : MinesweeperAI).known_safes ∩
    ({ height := 1, width := 2, moves_made := ∅, known_mines := {(0,1)},
       known_safes := {(0,0)}, knowledge := [] } : MinesweeperAI).known_mines = ∅ := by
  refine C3_disjoint_of_consistent_marks 1 2 [(true, (0,0)), (false, (0,1))] _
    (by decide) ?_
  intro c hc
  simp only [List.mem_cons, List.mem_singleton, Prod.mk.injEq, true_and,
    false_and, or_false, List.not_mem_nil] at hc
  rcases hc with rfl | ⟨h, -⟩
  · decide
  · exact absurd h (by decide)

/-- Counterexample to C3 as stated: marking the same cell safe and then
mine (both public operations of the agent) puts it in both sets, so the
reachable-state disjointness claim fails. -/
theorem C3_disjointness_violated :
    (MinesweeperAI.mark_mine (MinesweeperAI.mark_safe (MinesweeperAI.new 1 2) (0,0))
        (0,0)).map (fun s => s.known_safes ∩ s.known_mines) = some {(0,0)} := by
  decide

/-- Claim C7: `known_mines` returns the full cell set exactly when the
count equals the set size, `known_safes` exactly when the count is zero,
and both are empty on a two-cell sentence of count one. -/
theorem C7_known_queries :
    ∀ s : Sentence,
      (∀ x : Cell, x ∈ s.known_mines ↔ x ∈ s.cells ∧ s.count = s.cells.card) ∧
      (∀ x : Cell, x ∈ s.known_safes ↔ x ∈ s.cells ∧ s.count = 0) ∧
      Sentence.known_mines ⟨{(0,0),(0,1)}, 1⟩ = ∅ ∧
      Sentence.known_safes ⟨{(0,0),(0,1)}, 1⟩ = ∅ := by
  intro s
  refine ⟨?_, ?_, by decide, by decide⟩
  · intro x
    unfold Sentence.known_mines
    split
    · simp_all
    · simp_all
  · intro x
    unfold Sentence.known_safes
    split
    · simp_all
    · simp_all

/-- Counterexample to C2 as stated: on a 2×2 board, revealing `(0,0)`
with count 1 and then `(0,1)` with count 1 terminates with the knowledge
base holding the sentence `({(1,0),(1,1)}, 1)` twice — nothing prunes
duplicates. -/
theorem C2_duplicate_reachable :
    ((addKnowledge 0 (MinesweeperAI.new 2 2) (0,0) 1).bind
        (fun s => addKnowledge 0 s (0,1) 1)).map MinesweeperAI.knowledge
      = some [⟨{(1,0),(1,1)}, 1⟩, ⟨{(1,0),(1,1)}, 1⟩] := by decide

/-- Claim C2 (amended): the only duplicate protection is the skip of
pairs that are equal as (cells, count) values inside the derivation
step; duplicate sentences are never pruned, and a reachable state can
hold two sentences with identical (cells, count). -/
theorem C2_duplicates_persist :
    (∀ s1 : Sentence, derivePair s1 s1 = some []) ∧
    ((addKnowledge 0 (MinesweeperAI.new 2 2) (0,0) 1).bind
        (fun s => addKnowledge 0 s (0,1) 1)).map
        (fun s => s.knowledge.count (⟨{(1,0),(1,1)}, 1⟩ : Sentence)) = some 2 := by
  refine ⟨?_, by decide⟩
  intro s1
  simp [derivePair]

/-- Counterexample to C4 as stated: after revealing `(0,1)` of a 1×2
board with count 0, feeding the inconsistent clue `((0,0), 1)` (its only
neighbour is already resolved safe, so the remaining set is empty while
the adjusted count is 1) completes normally — no error is surfaced. -/
theorem C4_no_error_on_inconsistency :
    (addKnowledge 1 (MinesweeperAI.new 1 2) (0,1) 0).bind
        (fun s => addKnowledge 0 s (0,0) 1)
      = some ⟨1, 2, {(0,1),(0,0)}, ∅, {(0,1),(0,0)}, []⟩ := by decide

/-- Claim C4 (amended): an empty remaining cell set with a non-zero
adjusted count is silently ignored — no sentence is added and the call
succeeds; only a count driven below zero by known-mine neighbours
aborts, via unsigned underflow. -/
theorem C4_silent_ignore_and_underflow :
    ((addKnowledge 1 (MinesweeperAI.new 1 2) (0,1) 0).bind
        (fun s => addKnowledge 0 s (0,0) 1)).map MinesweeperAI.knowledge
      = some [] ∧
    (addKnowledge 1 (MinesweeperAI.new 1 3) (0,2) 1).bind
        (fun s => addKnowledge 0 s (0,0) 0) = none := by
  exact ⟨by decide, by decide⟩

lemma deriveRow_mem (s1 : Sentence) :
    ∀ (l r : List Sentence), deriveRow s1 l = some r →
      ∀ s2, s2 ∈ l → ∀ pr, derivePair s1 s2 = some pr → ∀ x, x ∈ pr → x ∈ r
  | [], _, _, s2, hs2, _, _, _, _ => absurd hs2 (List.not_mem_nil s2)
  | s2' :: rest, r, h, s2, hs2, pr, hpr, x, hx => by
      simp only [deriveRow, Option.bind_eq_bind] at h
      cases h1 : derivePair s1 s2' with
      | none => rw [h1] at h; simp at h
      | some a =>
          rw [h1] at h
          cases h2 : deriveRow s1 rest with
          | none => rw [h2] at h; simp at h
          | some b =>
              rw [h2] at h
              simp only [Option.some_bind, Option.pure_def, Option.some.injEq] at h
              subst h
              rcases List.mem_cons.mp hs2 with rfl | hmem
              · rw [hpr] at h1
                injection h1 with h1
                subst h1
                exact List.mem_append_left b hx
              · exact List.mem_append_right a
                  (deriveRow_mem s1 rest b h2 s2 hmem pr hpr x hx)

lemma deriveAll_row (snap : List Sentence) :
    ∀ (l2 r : List Sentence), deriveAll snap l2 = some r →
      ∀ s1, s1 ∈ l2 → ∃ rr, deriveRow s1 snap = some rr ∧ ∀ x, x ∈ rr → x ∈ r
  | [], _, _, s1, hs1 => absurd hs1 (List.not_mem_nil s1)
  | s1' :: rest, r, h, s1, hs1 => by
      simp only [deriveAll, Option.bind_eq_bind] at h
      cases ha : deriveRow s1' snap with
      | none => rw [ha] at h; simp at h
      | some a =>
          rw [ha] at h
          cases hb : deriveAll snap rest with
          | none => rw [hb] at h; simp at h
          | some b =>
              rw [hb] at h
              simp only [Option.some_bind, Option.pure_def, Option.some.injEq] at h
              subst h
              rcases List.mem_cons.mp hs1 with rfl | hmem
              · exact ⟨a, ha, fun x hx => List.mem_append_left b hx⟩
              · obtain ⟨rr, hrr, hs⟩ := deriveAll_row snap rest b hb s1 hmem
                exact ⟨rr, hrr, fun x hx => List.mem_append_right a (hs x hx)⟩

/-- Claim C5: within the derivation step run by each fixpoint pass, for
every ordered pair of distinct sentences `(A, B)` of the live snapshot
with `B.cells` a proper (hence non-empty-difference) subset of
`A.cells`, the sentence `(A.cells − B.cells, A.count − B.count)` is
among the derived sentences. -/
theorem C5_subset_difference (snapshot : List Sentence) (A B : Sentence)
    (r : List Sentence) (hA : A ∈ snapshot) (hB : B ∈ snapshot)
    (hne : A ≠ B) (hsub : B.cells ⊆ A.cells) (hproper : B.cells ≠ A.cells)
    (hcnt : B.count ≤ A.count) (hr : deriveNew snapshot = some r) :
    (⟨A.cells \ B.cells, A.count - B.count⟩ : Sentence) ∈ r := by
  have hdiff : A.cells \ B.cells ≠ ∅ := fun h =>
    hproper (Finset.Subset.antisymm hsub (Finset.sdiff_eq_empty_iff_subset.mp h))
  have hpair : derivePair A B =
      some [⟨A.cells \ B.cells, A.count - B.count⟩] := by
    unfold derivePair
    rw [if_neg hne, if_pos hsub, if_neg hdiff, if_pos hcnt]
  obtain ⟨rr, hrr, hsub2⟩ := deriveAll_row snapshot snapshot r hr A hA
  exact hsub2 _ (deriveRow_mem A snapshot rr hrr B hB _ hpair _
    (List.mem_singleton_self _))

/-- Witness for C5 at the instance named by the specification:
`A = ({(0,0),(0,1),(0,2)}, 2)`, `B = ({(0,0)}, 1)` derive
`({(0,1),(0,2)}, 1)`. -/
theorem C5_subset_difference_witness :
    (⟨({(0,0),(0,1),(0,2)} : Finset Cell) \ {(0,0)}, 2 - 1⟩ : Sentence) ∈
      ([⟨{(0,1),(0,2)}, 1⟩] : List Sentence) :=
  C5_subset_difference
    [⟨{(0,0),(0,1),(0,2)}, 2⟩, ⟨{(0,0)}, 1⟩]
    ⟨{(0,0),(0,1),(0,2)}, 2⟩ ⟨{(0,0)}, 1⟩
    [⟨{(0,1),(0,2)}, 1⟩]
    (by decide) (by decide) (by decide) (by decide) (by decide) (by decide)
    (by decide)

lemma mem_rowList (i : ℕ) : ∀ (w a b : ℕ), (a, b) ∈ rowList i w ↔ a = i ∧ b < w
  | 0, a, b => by simp [rowList]
  | w + 1, a, b => by
      simp only [rowList, List.mem_append, List.mem_singleton, Prod.mk.injEq,
        mem_rowList i w, Nat.lt_succ_iff_lt_or_eq]
      tauto

lemma mem_gridList : ∀ (h w a b : ℕ), (a, b) ∈ gridList h w ↔ a < h ∧ b < w
  | 0, w, a, b => by simp [gridList]
  | h + 1, w, a, b => by
      simp only [gridList, List.mem_append, mem_gridList h w, mem_rowList,
        Nat.lt_succ_iff_lt_or_eq]
      tauto

lemma random_candidates_empty_iff (s : MinesweeperAI) :
    s.random_candidates = [] ↔
      ∀ a b : ℕ, a < s.height → b < s.width →
        (a, b) ∈ s.moves_made ∨ (a, b) ∈ s.known_mines := by
  unfold MinesweeperAI.random_candidates
  rw [List.filter_eq_nil_iff]
  constructor
  · intro h a b ha hb
    have h' := h (a, b) ((mem_gridList _ _ a b).mpr ⟨ha, hb⟩)
    simp only [decide_eq_true_eq] at h'
    tauto
  · intro h c hc
    obtain ⟨a, b⟩ := c
    obtain ⟨ha, hb⟩ := (mem_gridList _ _ a b).mp hc
    simp only [decide_eq_true_eq]
    intro hcontra
    rcases h a b ha hb with hm | hm
    · exact hcontra.1 hm
    · exact hcontra.2 hm

lemma make_random_move_none_iff (s : MinesweeperAI) (k : ℕ) :
    s.make_random_move k = none ↔ s.random_candidates = [] := by
  by_cases h : s.random_candidates = []
  · simp [MinesweeperAI.make_random_move, h]
  · simp [MinesweeperAI.make_random_move, h]

/-- Claim C9: every cell `make_random_move` returns is outside both
`moves_made` and `known_mines`, and it returns `none` exactly when every
board cell lies in `moves_made ∪ known_mines`. -/
theorem C9_make_random_move (s : MinesweeperAI) :
    (∀ (k : ℕ) (c : Cell), s.make_random_move k = some c →
        c ∉ s.moves_made ∧ c ∉ s.known_mines) ∧
    (∀ k : ℕ, s.make_random_move k = none ↔
        ∀ a b : ℕ, a < s.height → b < s.width →
          (a, b) ∈ s.moves_made ∨ (a, b) ∈ s.known_mines) := by
  constructor
  · intro k c hc
    have hmem : c ∈ s.random_candidates := by
      by_cases h : s.random_candidates = []
      · simp [MinesweeperAI.make_random_move, h] at hc
      · simp only [MinesweeperAI.make_random_move] at hc
        rw [dif_neg h] at hc
        exact Option.some.inj hc ▸ List.get_mem _ _ _
    have := (List.mem_filter.mp hmem).2
    simpa using this
  · intro k
    rw [make_random_move_none_iff s k]
    exact random_candidates_empty_iff s

/-- Witness for C9: on a fresh 1×1 agent the random move `(0,0)` avoids
the empty `moves_made` and `known_mines` sets. -/
theorem C9_make_random_move_witness :
    ((0, 0) : Cell) ∉ (MinesweeperAI.new 1 1).moves_made ∧
      ((0, 0) : Cell) ∉ (MinesweeperAI.new 1 1).known_mines :=
  (C9_make_random_move (MinesweeperAI.new 1 1)).1 0 (0, 0) (by decide)

lemma rowList_find_none (i : ℕ) (p : Cell → Bool) :
    ∀ w : ℕ, (rowList i w).find? p = none ↔ ∀ j < w, p (i, j) = false
  | 0 => by simp [rowList]
  | w + 1 => by
      simp only [rowList, List.find?_append, Option.or_eq_none,
        rowList_find_none i p w, List.find?_eq_none, List.mem_singleton,
        forall_eq, Bool.not_eq_true]
      constructor
      · rintro ⟨h1, h2⟩ j hj
        rcases Nat.lt_succ_iff_lt_or_eq.mp hj with hj' | rfl
        · exact h1 j hj'
        · exact h2
      · intro h
        exact ⟨fun j hj => h j (Nat.lt_succ_of_lt hj), h w (Nat.lt_succ_self w)⟩

lemma rowList_find_some (i : ℕ) (p : Cell → Bool) :
    ∀ (w : ℕ) (c : Cell), (rowList i w).find? p = some c →
      c.1 = i ∧ c.2 < w ∧ p c = true ∧ ∀ j < c.2, p (i, j) = false
  | 0, c, h => by simp [rowList] at h
  | w + 1, c, h => by
      rw [rowList, List.find?_append] at h
      cases h1 : (rowList i w).find? p with
      | some c' =>
          rw [h1, Option.or_some] at h
          injection h with h
          subst h
          obtain ⟨ha, hb, hp, hmin⟩ := rowList_find_some i p w c' h1
          exact ⟨ha, Nat.lt_succ_of_lt hb, hp, hmin⟩
      | none =>
          rw [h1, Option.none_or] at h
          have hrow := (rowList_find_none i p w).mp h1
          cases hp : p (i, w) with
          | true =>
              rw [List.find?_cons_of_pos _ hp] at h
              injection h with h
              subst h
              exact ⟨rfl, Nat.lt_succ_self w, hp, fun j hj => hrow j hj⟩
          | false =>
              rw [List.find?_cons_of_neg _ (by simp [hp])] at h
              simp at h

lemma gridList_find_none (w : ℕ) (p : Cell → Bool) :
    ∀ h : ℕ, (gridList h w).find? p = none ↔
      ∀ a, a < h → ∀ b, b < w → p (a, b) = false
  | 0 => by simp [gridList]
  | h + 1 => by
      simp only [gridList, List.find?_append, Option.or_eq_none,
        gridList_find_none w p h, rowList_find_none]
      constructor
      · rintro ⟨h1, h2⟩ a ha b hb
        rcases Nat.lt_succ_iff_lt_or_eq.mp ha with ha' | rfl
        · exact h1 a ha' b hb
        · exact h2 b hb
      · intro hall
        exact ⟨fun a ha b hb => hall a (Nat.lt_succ_of_lt ha) b hb,
          fun b hb => hall h (Nat.lt_succ_self h) b hb⟩

lemma gridList_find_some (w : ℕ) (p : Cell → Bool) :
    ∀ (h : ℕ) (c : Cell), (gridList h w).find? p = some c →
      c.1 < h ∧ c.2 < w ∧ p c = true ∧
        ∀ a b : ℕ, a < h → b < w → (a < c.1 ∨ (a = c.1 ∧ b < c.2)) →
          p (a, b) = false
  | 0, c, hf => by simp [gridList] at hf
  | h + 1, c, hf => by
      rw [gridList, List.find?_append] at hf
      cases h1 : (gridList h w).find? p with
      | some c' =>
          rw [h1, Option.or_some] at hf
          injection hf with hf
          subst hf
          obtain ⟨ha, hb, hp, hmin⟩ := gridList_find_some w p h c' h1
          refine ⟨Nat.lt_succ_of_lt ha, hb, hp, ?_⟩
          intro a b haa hbb hord
          rcases Nat.lt_succ_iff_lt_or_eq.mp haa with ha' | rfl
          · exact hmin a b ha' hbb hord
          · rcases hord with hlt | ⟨heq, _⟩
            · exact absurd (Nat.lt_trans hlt ha) (Nat.lt_irrefl _)
            · exact absurd heq (Ne.symm (ne_of_lt ha))
      | none =>
          rw [h1, Option.none_or] at hf
          obtain ⟨hci, hcw, hp, hmin⟩ := rowList_find_some h p w c hf
          have hnone := (gridList_find_none w p h).mp h1
          refine ⟨hci ▸ Nat.lt_succ_self h, hcw, hp, ?_⟩
          intro a b haa hbb hord
          rcases Nat.lt_succ_iff_lt_or_eq.mp haa with ha' | rfl
          · exact hnone a ha' b hbb
          · rcases hord with hlt | ⟨heq, hblt⟩
            · rw [hci] at hlt
              exact absurd hlt (Nat.lt_irrefl _)
            · exact hmin b hblt

/-- Claim C8: `make_safe_move` scans cells in row-major order and
returns the first cell that is known safe and not already played, or
`none` when no such cell exists; as a pure function of the agent state
it mutates nothing. -/
theorem C8_make_safe_move (s : MinesweeperAI) :
    (∀ c : Cell, s.make_safe_move = some c →
        c.1 < s.height ∧ c.2 < s.width ∧ c ∉ s.moves_made ∧
        c ∈ s.known_safes ∧
        ∀ a b : ℕ, a < s.height → b < s.width →
          (a < c.1 ∨ (a = c.1 ∧ b < c.2)) →
          ¬((a, b) ∉ s.moves_made ∧ (a, b) ∈ s.known_safes)) ∧
    (s.make_safe_move = none ↔
      ∀ a b : ℕ, a < s.height → b < s.width →
        ¬((a, b) ∉ s.moves_made ∧ (a, b) ∈ s.known_safes)) := by
  constructor
  · intro c hc
    obtain ⟨h1, h2, h3, h4⟩ := gridList_find_some s.width _ s.height c hc
    have hp := of_decide_eq_true h3
    refine ⟨h1, h2, hp.1, hp.2, ?_⟩
    intro a b ha hb hord hcontra
    have hfalse := h4 a b ha hb hord
    rw [decide_eq_false_iff_not] at hfalse
    exact hfalse hcontra
  · unfold MinesweeperAI.make_safe_move
    rw [gridList_find_none]
    constructor
    · intro h a b ha hb hcontra
      have hfalse := h a ha b hb
      rw [decide_eq_false_iff_not] at hfalse
      exact hfalse hcontra
    · intro h a ha b hb
      rw [decide_eq_false_iff_not]
      exact h a b ha hb

/-- Witness for C8: on an agent knowing `(1,0)` safe with no moves made,
the returned move `(1,0)` is known safe and unplayed. -/
theorem C8_make_safe_move_witness :
    ((1, 0) : Cell) ∈
        ({ height := 2, width := 2, moves_made := ∅, known_mines := ∅,
           known_safes := {(1, 0)}, knowledge := [] } : MinesweeperAI).known_safes ∧
      ((1, 0) : Cell) ∉
        ({ height := 2, width := 2, moves_made := ∅, known_mines := ∅,
           known_safes := {(1, 0)}, knowledge := [] } : MinesweeperAI).moves_made := by
  have h := (C8_make_safe_move
    ({ height := 2, width := 2, moves_made := ∅, known_mines := ∅,
       known_safes := {(1, 0)}, knowledge := [] } : MinesweeperAI)).1
    (1, 0) (by decide)
  exact ⟨h.2.2.2.1, h.2.2.1⟩

/-- The cell set of the sentence built by evidence ingestion,
characterized over the pre-call state: the grid-bounded neighbours of
`cell` that are in none of `moves_made`, `known_safes`, `known_mines`. -/
def undeterminedNbrs (s : MinesweeperAI) (cell : Cell) : Finset Cell :=
  ((neighborsList s.height s.width cell).filter
    (fun c => decide (c ≠ cell ∧ c ∉ s.moves_made ∧ c ∉ s.known_safes ∧
      c ∉ s.known_mines))).toFinset

/-- The number of grid-bounded neighbours of `cell` already known to be
mines, characterized over the pre-call state. -/
def mineAdjCount (s : MinesweeperAI) (cell : Cell) : ℕ :=
  ((neighborsList s.height s.width cell).filter
    (fun c => decide (c ≠ cell ∧ c ∈ s.known_mines))).length

lemma scanNbhd_eq (t : MinesweeperAI) (cell : Cell) :
    ∀ (l : List Cell) (acc : Finset Cell) (cnt : ℕ),
      (l.filter (fun c => decide (c ≠ cell ∧ c ∈ t.known_mines))).length ≤ cnt →
      scanNbhd t cell l (acc, cnt) =
        some (acc ∪ (l.filter (fun c => decide (c ≠ cell ∧ c ∉ t.moves_made ∧
              c ∉ t.known_safes ∧ c ∉ t.known_mines))).toFinset,
          cnt - (l.filter (fun c => decide (c ≠ cell ∧ c ∈ t.known_mines))).length)
  | [], acc, cnt, _ => by simp [scanNbhd]
  | c :: l, acc, cnt, h => by
      by_cases hc : c = cell
      · have hm : ¬((fun c => decide (c ≠ cell ∧ c ∈ t.known_mines)) c = true) := by
          simp [hc]
        have hu : ¬((fun c => decide (c ≠ cell ∧ c ∉ t.moves_made ∧
            c ∉ t.known_safes ∧ c ∉ t.known_mines)) c = true) := by
          simp [hc]
        rw [@List.filter_cons_of_neg Cell (fun c => decide (c ≠ cell ∧ c ∈ t.known_mines)) c l hm] at h
        rw [@List.filter_cons_of_neg Cell (fun c => decide (c ≠ cell ∧ c ∈ t.known_mines)) c l hm,
          @List.filter_cons_of_neg Cell (fun c => decide (c ≠ cell ∧ c ∉ t.moves_made ∧
              c ∉ t.known_safes ∧ c ∉ t.known_mines)) c l hu]
        simp only [scanNbhd, if_pos hc]
        exact scanNbhd_eq t cell l acc cnt h
      · by_cases hmem : c ∈ t.known_mines
        · have hm : (fun c => decide (c ≠ cell ∧ c ∈ t.known_mines)) c = true := by
            simp [hc, hmem]
          have hu : ¬((fun c => decide (c ≠ cell ∧ c ∉ t.moves_made ∧
              c ∉ t.known_safes ∧ c ∉ t.known_mines)) c = true) := by
            simp [hmem]
          rw [@List.filter_cons_of_pos Cell (fun c => decide (c ≠ cell ∧ c ∈ t.known_mines)) c l hm, List.length_cons] at h
          rw [@List.filter_cons_of_pos Cell (fun c => decide (c ≠ cell ∧ c ∈ t.known_mines)) c l hm,
            @List.filter_cons_of_neg Cell (fun c => decide (c ≠ cell ∧ c ∉ t.moves_made ∧
              c ∉ t.known_safes ∧ c ∉ t.known_mines)) c l hu]
          have hcnt : cnt ≠ 0 := by omega
          simp only [scanNbhd, if_neg hc]
          rw [if_neg (show ¬(c ∉ t.moves_made ∧ c ∉ t.known_safes ∧
            c ∉ t.known_mines) from fun hh => hh.2.2 hmem)]
          rw [if_pos hmem, if_neg hcnt]
          rw [scanNbhd_eq t cell l acc (cnt - 1) (by omega)]
          have harith : cnt - 1 -
              (l.filter (fun c => decide (c ≠ cell ∧ c ∈ t.known_mines))).length
              = cnt - ((l.filter (fun c => decide (c ≠ cell ∧
                  c ∈ t.known_mines))).length + 1) := by omega
          rw [harith, List.length_cons]
        · have hm : ¬((fun c => decide (c ≠ cell ∧ c ∈ t.known_mines)) c = true) := by
            simp [hmem]
          rw [@List.filter_cons_of_neg Cell (fun c => decide (c ≠ cell ∧ c ∈ t.known_mines)) c l hm] at h
          rw [@List.filter_cons_of_neg Cell (fun c => decide (c ≠ cell ∧ c ∈ t.known_mines)) c l hm]
          simp only [scanNbhd, if_neg hc]
          rw [if_neg hmem]
          by_cases hund : c ∉ t.moves_made ∧ c ∉ t.known_safes ∧ c ∉ t.known_mines
          · have hu : (fun c => decide (c ≠ cell ∧ c ∉ t.moves_made ∧
                c ∉ t.known_safes ∧ c ∉ t.known_mines)) c = true := by
              simp only [decide_eq_true_eq]
              exact ⟨hc, hund⟩
            rw [@List.filter_cons_of_pos Cell (fun c => decide (c ≠ cell ∧ c ∉ t.moves_made ∧
              c ∉ t.known_safes ∧ c ∉ t.known_mines)) c l hu]
            rw [if_pos hund]
            rw [scanNbhd_eq t cell l (insert c acc) cnt h]
            rw [List.toFinset_cons, Finset.insert_union, Finset.union_insert]
          · have hu : ¬((fun c => decide (c ≠ cell ∧ c ∉ t.moves_made ∧
                c ∉ t.known_safes ∧ c ∉ t.known_mines)) c = true) := by
              simp only [decide_eq_true_eq]
              exact fun hdec => hund hdec.2
            rw [@List.filter_cons_of_neg Cell (fun c => decide (c ≠ cell ∧ c ∉ t.moves_made ∧
              c ∉ t.known_safes ∧ c ∉ t.known_mines)) c l hu]
            rw [if_neg hund]
            exact scanNbhd_eq t cell l acc cnt h

/-- Claim C6: `add_knowledge(cell, count)` records the move, marks the
cell safe, and appends over the bounds-clipped neighbourhood a sentence
whose cells are the undetermined neighbours and whose count is reduced
by one per known-mine neighbour — appended exactly when that cell set is
non-empty.  This characterizes the ingestion steps 1-3 that precede the
inference loop. -/
theorem C6_add_knowledge_ingestion (s : MinesweeperAI) (cell : Cell)
    (count : ℕ) (hk : mineAdjCount s cell ≤ count) :
    addKnowledgeCore s cell count =
      some { height := s.height, width := s.width,
             moves_made := insert cell s.moves_made,
             known_mines := s.known_mines,
             known_safes := insert cell s.known_safes,
             knowledge :=
               s.knowledge.map (fun sen => sen.mark_safe cell) ++
                 (if undeterminedNbrs s cell = ∅ then []
                  else [⟨undeterminedNbrs s cell,
                         count - mineAdjCount s cell⟩]) } := by
  have hfilter : (neighborsList s.height s.width cell).filter
        (fun c => decide (c ≠ cell ∧ c ∉ insert cell s.moves_made ∧
          c ∉ insert cell s.known_safes ∧ c ∉ s.known_mines))
      = (neighborsList s.height s.width cell).filter
        (fun c => decide (c ≠ cell ∧ c ∉ s.moves_made ∧ c ∉ s.known_safes ∧
          c ∉ s.known_mines)) := by
    apply List.filter_congr
    intro c _
    rw [decide_eq_decide]
    by_cases hc : c = cell
    · simp [hc]
    · simp [Finset.mem_insert, hc]
  have hscan : scanNbhd
        (⟨s.height, s.width, insert cell s.moves_made, s.known_mines,
          insert cell s.known_safes,
          s.knowledge.map (fun sen => sen.mark_safe cell)⟩ : MinesweeperAI)
        cell (neighborsList s.height s.width cell) (∅, count)
      = some (undeterminedNbrs s cell, count - mineAdjCount s cell) := by
    rw [scanNbhd_eq
      (⟨s.height, s.width, insert cell s.moves_made, s.known_mines,
        insert cell s.known_safes,
        s.knowledge.map (fun sen => sen.mark_safe cell)⟩ : MinesweeperAI)
      cell (neighborsList s.height s.width cell) ∅ count hk]
    dsimp only
    rw [hfilter, Finset.empty_union]
    rfl
  simp only [addKnowledgeCore, MinesweeperAI.mark_safe]
  rw [hscan]
  by_cases hA : undeterminedNbrs s cell = ∅
  · simp [hA]
  · simp [hA]

/-- Witness for C6 on a fresh 2×2 agent revealing `(0,0)` with count 1:
no known-mine neighbour, so the resulting sentence keeps count 1 over
the three undetermined neighbours. -/
theorem C6_add_knowledge_ingestion_witness :
    mineAdjCount (MinesweeperAI.new 2 2) (0, 0) ≤ 1 ∧
      addKnowledgeCore (MinesweeperAI.new 2 2) (0, 0) 1 =
        some { height := (MinesweeperAI.new 2 2).height,
               width := (MinesweeperAI.new 2 2).width,
               moves_made := insert (0, 0) (MinesweeperAI.new 2 2).moves_made,
               known_mines := (MinesweeperAI.new 2 2).known_mines,
               known_safes := insert (0, 0) (MinesweeperAI.new 2 2).known_safes,
               knowledge :=
                 (MinesweeperAI.new 2 2).knowledge.map
                     (fun sen => sen.mark_safe (0, 0)) ++
                   (if undeterminedNbrs (MinesweeperAI.new 2 2) (0, 0) = ∅ then []
                    else [⟨undeterminedNbrs (MinesweeperAI.new 2 2) (0, 0),
                           1 - mineAdjCount (MinesweeperAI.new 2 2) (0, 0)⟩]) } :=
  ⟨by decide, C6_add_knowledge_ingestion (MinesweeperAI.new 2 2) (0, 0) 1
    (by decide)⟩

/-- The loop invariant of the mine-placement loop: board dimensions are
`h × w`, every mine is in bounds, the board entry of every in-bounds
cell reflects membership in the mine set, and at most `n` mines exist. -/
def MinesInv (h w n : ℕ) (m : Minesweeper) : Prop :=
  m.board.length = h ∧
  (∀ row ∈ m.board, row.length = w) ∧
  (∀ c ∈ m.mines, c.1 < h ∧ c.2 < w) ∧
  (∀ i j : ℕ, i < h → j < w →
    boardGet m.board i j = some (decide ((i, j) ∈ m.mines))) ∧
  m.mines.card ≤ n

lemma boardGet_eq_row (b : List (List Bool)) (row : List Bool) (i j : ℕ)
    (hrow : b.get? i = some row) : boardGet b i j = row.get? j := by
  unfold boardGet
  rw [hrow]

lemma minesInv_step (h w n : ℕ) (hh : 0 < h) (hw : 0 < w)
    (m : Minesweeper) (hinv : MinesInv h w n m) (d : ℕ × ℕ)
    (hlt : m.mines.card < n)
    (hb : ¬ boardGet m.board (d.1 % h) (d.2 % w) = some true) :
    MinesInv h w n
      { m with mines := insert (d.1 % h, d.2 % w) m.mines,
               board := boardSet m.board (d.1 % h) (d.2 % w) } := by
  obtain ⟨hlen, hrows, hbnd, hcorr, hcard⟩ := hinv
  set i := d.1 % h with hi
  set j := d.2 % w with hj
  have hih : i < h := Nat.mod_lt _ hh
  have hjw : j < w := Nat.mod_lt _ hw
  have hib : i < m.board.length := by rw [hlen]; exact hih
  obtain ⟨row0, hrow0⟩ : ∃ row, m.board.get? i = some row := by
    cases hr : m.board.get? i with
    | none => exact absurd (List.get?_eq_none.mp hr) (Nat.not_le_of_lt hib)
    | some row => exact ⟨row, rfl⟩
  have hrow0mem : row0 ∈ m.board := List.get?_mem hrow0
  have hrow0len : row0.length = w := hrows row0 hrow0mem
  have hnotmem : (i, j) ∉ m.mines := by
    intro hmem
    exact hb (by rw [hcorr i j hih hjw, decide_eq_true hmem])
  have hset : boardSet m.board i j = m.board.set i (row0.set j true) := by
    unfold boardSet
    rw [hrow0]
    rfl
  refine ⟨?_, ?_, ?_, ?_, ?_⟩
  · simp [hset, hlen]
  · intro row hrow
    rw [hset] at hrow
    rcases List.mem_or_eq_of_mem_set hrow with hmem | rfl
    · exact hrows row hmem
    · rw [List.length_set]
      exact hrow0len
  · intro c hc
    rcases Finset.mem_insert.mp hc with rfl | hc'
    · exact ⟨hih, hjw⟩
    · exact hbnd c hc'
  · intro a b ha hb'
    rw [hset]
    by_cases hai : a = i
    · subst hai
      have hgota : (m.board.set i (row0.set j true)).get? i
          = some (row0.set j true) := by
        rw [List.get?_eq_getElem?]
        exact List.getElem?_set_self (by rw [hlen]; exact ha)
      rw [boardGet_eq_row _ _ _ _ hgota]
      by_cases hbj : b = j
      · subst hbj
        rw [List.get?_eq_getElem?,
          List.getElem?_set_self (by rw [hrow0len]; exact hb')]
        have hself : ((i, j) ∈ insert (i, j) m.mines) := Finset.mem_insert_self _ _
        rw [decide_eq_true hself]
      · rw [List.get?_eq_getElem?, List.getElem?_set_ne (Ne.symm hbj),
          ← List.get?_eq_getElem?]
        have hmm : ((i, b) ∈ insert (i, j) m.mines) ↔ (i, b) ∈ m.mines := by
          rw [Finset.mem_insert]
          constructor
          · rintro (hpair | hmem)
            · exact absurd (congrArg Prod.snd hpair) hbj
            · exact hmem
          · exact Or.inr
        rw [← boardGet_eq_row m.board row0 i b hrow0, hcorr i b ha hb']
        congr 1
        exact decide_eq_decide.mpr hmm.symm
    · have hgota : (m.board.set i (row0.set j true)).get? a = m.board.get? a := by
        rw [List.get?_eq_getElem?, List.getElem?_set_ne (Ne.symm hai),
          ← List.get?_eq_getElem?]
      unfold boardGet
      rw [hgota]
      have := hcorr a b ha hb'
      unfold boardGet at this
      rw [this]
      have hmm : ((a, b) ∈ insert (i, j) m.mines) ↔ (a, b) ∈ m.mines := by
        rw [Finset.mem_insert]
        constructor
        · rintro (hpair | hmem)
          · exact absurd (congrArg Prod.fst hpair) hai
          · exact hmem
        · exact Or.inr
      congr 1
      exact decide_eq_decide.mpr hmm.symm
  · rw [Finset.card_insert_of_not_mem hnotmem]
    exact hlt

lemma minesNewGo_sound (h w n : ℕ) (hh : 0 < h) (hw : 0 < w) :
    ∀ (draws : List (ℕ × ℕ)) (m g : Minesweeper), MinesInv h w n m →
      minesNewGo h w n draws m = some g →
      MinesInv h w n g ∧ g.mines.card = n
  | [], m, g, hinv, hgo => by
      by_cases hlt : m.mines.card < n
      · simp [minesNewGo, hlt] at hgo
      · simp only [minesNewGo, if_neg hlt, Option.some.injEq] at hgo
        subst hgo
        exact ⟨hinv, Nat.le_antisymm hinv.2.2.2.2 (Nat.le_of_not_lt hlt)⟩
  | d :: rest, m, g, hinv, hgo => by
      by_cases hlt : m.mines.card < n
      · rw [minesNewGo, if_pos hlt] at hgo
        by_cases hb : boardGet m.board (d.1 % h) (d.2 % w) = some true
        · rw [if_pos hb] at hgo
          exact minesNewGo_sound h w n hh hw rest m g hinv hgo
        · rw [if_neg hb] at hgo
          exact minesNewGo_sound h w n hh hw rest _ g
            (minesInv_step h w n hh hw m hinv d hlt hb) hgo
      · rw [minesNewGo, if_neg hlt] at hgo
        injection hgo with hgo
        subst hgo
        exact ⟨hinv, Nat.le_antisymm hinv.2.2.2.2 (Nat.le_of_not_lt hlt)⟩

/-- Claim C10: a successful `Minesweeper::new(h, w, n)` (with `h, w ≥ 1`
and `n ≤ h·w`) yields exactly `n` mines, all inside the board, with
`board[i][j]` true exactly on mine cells, and `is_mine` agreeing with
mine-set membership on every in-bounds cell. -/
theorem C10_minesweeper_new (h w n : ℕ) (draws : List (ℕ × ℕ))
    (g : Minesweeper) (hh : 0 < h) (hw : 0 < w) (_hn : n ≤ h * w)
    (hg : Minesweeper.new h w n draws = some g) :
    g.mines.card = n ∧
    (∀ c ∈ g.mines, c.1 < h ∧ c.2 < w) ∧
    (∀ i j : ℕ, i < h → j < w →
      (boardGet g.board i j = some true ↔ (i, j) ∈ g.mines)) ∧
    (∀ i j : ℕ, i < h → j < w →
      (g.is_mine (i, j) = some true ↔ (i, j) ∈ g.mines)) := by
  have hinv0 : MinesInv h w n
      ⟨h, w, ∅, ∅, List.replicate h (List.replicate w false)⟩ := by
    refine ⟨List.length_replicate .., ?_, ?_, ?_, ?_⟩
    · intro row hrow
      rw [List.eq_of_mem_replicate hrow]
      exact List.length_replicate ..
    · intro c hc
      exact absurd hc (Finset.not_mem_empty c)
    · intro i j hi hj
      unfold boardGet
      rw [List.get?_eq_getElem?, List.getElem?_replicate_of_lt hi]
      dsimp only
      rw [List.get?_eq_getElem?, List.getElem?_replicate_of_lt hj]
      simp
    · simp
  obtain ⟨hinv, hcard⟩ :=
    minesNewGo_sound h w n hh hw draws _ g hinv0 hg
  have hcorr := hinv.2.2.2.1
  refine ⟨hcard, hinv.2.2.1, ?_, ?_⟩
  · intro i j hi hj
    rw [hcorr i j hi hj]
    simp
  · intro i j hi hj
    show boardGet g.board i j = some true ↔ (i, j) ∈ g.mines
    rw [hcorr i j hi hj]
    simp

/-- Witness for C10: two draws fill a 1×2 board with its two mines. -/
theorem C10_minesweeper_new_witness :
    (⟨1, 2, {(0,0),(0,1)}, ∅, [[true, true]]⟩ : Minesweeper).mines.card = 2 :=
  (C10_minesweeper_new 1 2 2 [(0, 0), (0, 1)]
    ⟨1, 2, {(0,0),(0,1)}, ∅, [[true, true]]⟩
    (by decide) (by decide) (by decide) (by decide)).1

/-- Sentence `({(0,1),(1,0)}, 1)`: what survives of the first clue after
`(1,1)` is revealed in the diverging run below. -/
def sA : Sentence := ⟨{(0,1),(1,0)}, 1⟩

/-- Sentence `({(0,1),(0,2),(1,0),(1,2)}, 2)`: the clue of `(1,1)` in
the diverging run below. -/
def sB : Sentence := ⟨{(0,1),(0,2),(1,0),(1,2)}, 2⟩

/-- Sentence `({(0,2),(1,2)}, 1)`: the subset difference of `sB` and
`sA`, re-derived by every pass. -/
def sD : Sentence := ⟨{(0,2),(1,2)}, 1⟩

/-- The sentences that can occur in the diverging knowledge base. -/
abbrev inABD (x : Sentence) : Prop := x = sA ∨ x = sB ∨ x = sD

/-- States on which the fixpoint loop never stops: `sA` and `sB` are
both live and every sentence is one of `sA`, `sB`, `sD`. -/
def looping (s : MinesweeperAI) : Prop :=
  sA ∈ s.knowledge ∧ sB ∈ s.knowledge ∧ ∀ x ∈ s.knowledge, inABD x

lemma listStagedSafes_empty : ∀ l : List Sentence,
    (∀ x ∈ l, inABD x) → listStagedSafes l = ∅
  | [], _ => rfl
  | x :: rest, h => by
      have hx : x.known_safes = ∅ := by
        rcases h x (List.mem_cons_self x rest) with rfl | rfl | rfl <;> decide
      rw [listStagedSafes, hx,
        listStagedSafes_empty rest (fun y hy => h y (List.mem_cons_of_mem x hy))]
      simp

lemma listStagedMines_empty : ∀ l : List Sentence,
    (∀ x ∈ l, inABD x) → listStagedMines l = ∅
  | [], _ => rfl
  | x :: rest, h => by
      have hx : x.known_mines = ∅ := by
        rcases h x (List.mem_cons_self x rest) with rfl | rfl | rfl <;> decide
      rw [listStagedMines, hx,
        listStagedMines_empty rest (fun y hy => h y (List.mem_cons_of_mem x hy))]
      simp

lemma map_sdiff_empty : ∀ l : List Sentence,
    (l.map (fun sen => (⟨sen.cells \ ∅, sen.count⟩ : Sentence))) = l
  | [] => rfl
  | sen :: rest => by
      obtain ⟨cs, ct⟩ := sen
      simp [map_sdiff_empty rest]

lemma reduceMines_empty : ∀ l : List Sentence, reduceMines ∅ l = some l
  | [] => rfl
  | sen :: rest => by
      obtain ⟨cs, ct⟩ := sen
      simp [reduceMines, reduceMines_empty rest]

lemma filter_nonempty_id : ∀ l : List Sentence, (∀ x ∈ l, inABD x) →
    (l.filter (fun sen => !(decide (sen.cells = ∅)))) = l
  | [], _ => rfl
  | x :: rest, h => by
      have hx : (fun sen : Sentence => !(decide (sen.cells = ∅))) x = true := by
        rcases h x (List.mem_cons_self x rest) with rfl | rfl | rfl <;> decide
      rw [@List.filter_cons_of_pos Sentence
        (fun sen => !(decide (sen.cells = ∅))) x rest hx,
        filter_nonempty_id rest (fun y hy => h y (List.mem_cons_of_mem x hy))]

lemma derivePair_inABD (x y : Sentence) (hx : inABD x) (hy : inABD y) :
    ∃ pr, derivePair x y = some pr ∧ ∀ z ∈ pr, inABD z := by
  rcases hx with rfl | rfl | rfl <;> rcases hy with rfl | rfl | rfl <;>
    first
      | exact ⟨[], by decide, by decide⟩
      | exact ⟨[sD], by decide, by decide⟩
      | exact ⟨[sA], by decide, by decide⟩

lemma deriveRow_good (x : Sentence) (hx : inABD x) :
    ∀ l : List Sentence, (∀ y ∈ l, inABD y) →
      ∃ r, deriveRow x l = some r ∧ ∀ z ∈ r, inABD z
  | [], _ => ⟨[], rfl, by simp⟩
  | y :: rest, h => by
      obtain ⟨pr, hpr, hprg⟩ :=
        derivePair_inABD x y hx (h y (List.mem_cons_self y rest))
      obtain ⟨r, hr, hrg⟩ :=
        deriveRow_good x hx rest (fun z hz => h z (List.mem_cons_of_mem y hz))
      refine ⟨pr ++ r, ?_, ?_⟩
      · simp [deriveRow, hpr, hr]
      · intro z hz
        rcases List.mem_append.mp hz with hz | hz
        · exact hprg z hz
        · exact hrg z hz

lemma deriveRow_B_hasD : ∀ l : List Sentence, sA ∈ l →
    ∀ r, deriveRow sB l = some r → sD ∈ r
  | [], hA, _, _ => absurd hA (List.not_mem_nil _)
  | y :: rest, hA, r, hr => by
      simp only [deriveRow, Option.bind_eq_bind] at hr
      cases h1 : derivePair sB y with
      | none => rw [h1] at hr; simp at hr
      | some a =>
          rw [h1] at hr
          cases h2 : deriveRow sB rest with
          | none => rw [h2] at hr; simp at hr
          | some b =>
              rw [h2] at hr
              simp only [Option.some_bind, Option.pure_def,
                Option.some.injEq] at hr
              subst hr
              by_cases hy : y = sA
              · subst hy
                have hBA : derivePair sB sA = some [sD] := by decide
                rw [hBA] at h1
                injection h1 with h1
                subst h1
                exact List.mem_append_left b (List.mem_singleton_self sD)
              · have hA' : sA ∈ rest := by
                  rcases List.mem_cons.mp hA with h | h
                  · exact absurd h.symm hy
                  · exact h
                exact List.mem_append_right a (deriveRow_B_hasD rest hA' b h2)

lemma deriveAll_good (snap : List Sentence) (hsnap : ∀ y ∈ snap, inABD y) :
    ∀ l : List Sentence, (∀ y ∈ l, inABD y) →
      ∃ r, deriveAll snap l = some r ∧ ∀ z ∈ r, inABD z
  | [], _ => ⟨[], rfl, by simp⟩
  | x :: rest, h => by
      obtain ⟨rr, hrr, hrrg⟩ :=
        deriveRow_good x (h x (List.mem_cons_self x rest)) snap hsnap
      obtain ⟨r, hr, hrg⟩ := deriveAll_good snap hsnap rest
        (fun z hz => h z (List.mem_cons_of_mem x hz))
      refine ⟨rr ++ r, ?_, ?_⟩
      · simp [deriveAll, hrr, hr]
      · intro z hz
        rcases List.mem_append.mp hz with hz | hz
        · exact hrrg z hz
        · exact hrg z hz

lemma deriveAll_hasD (snap : List Sentence) (hA : sA ∈ snap) :
    ∀ l : List Sentence, sB ∈ l →
      ∀ r, deriveAll snap l = some r → sD ∈ r
  | [], hB, _, _ => absurd hB (List.not_mem_nil _)
  | x :: rest, hB, r, hr => by
      simp only [deriveAll, Option.bind_eq_bind] at hr
      cases h1 : deriveRow x snap with
      | none => rw [h1] at hr; simp at hr
      | some a =>
          rw [h1] at hr
          cases h2 : deriveAll snap rest with
          | none => rw [h2] at hr; simp at hr
          | some b =>
              rw [h2] at hr
              simp only [Option.some_bind, Option.pure_def,
                Option.some.injEq] at hr
              subst hr
              by_cases hx : x = sB
              · subst hx
                exact List.mem_append_left b (deriveRow_B_hasD snap hA a h1)
              · have hB' : sB ∈ rest := by
                  rcases List.mem_cons.mp hB with h | h
                  · exact absurd h.symm hx
                  · exact h
                exact List.mem_append_right a (deriveAll_hasD snap hA rest hB' b h2)

lemma passOnce_looping (s : MinesweeperAI) (hs : looping s) :
    ∃ s', passOnce s = some (s', true) ∧ looping s' := by
  obtain ⟨hA, hB, hall⟩ := hs
  have hss : listStagedSafes s.knowledge = ∅ := listStagedSafes_empty _ hall
  have hsm : listStagedMines s.knowledge = ∅ := listStagedMines_empty _ hall
  obtain ⟨r, hr, hrg⟩ := deriveAll_good s.knowledge hall s.knowledge hall
  have hDr : sD ∈ r := deriveAll_hasD s.knowledge hA s.knowledge hB r hr
  have hrne : ¬(r = []) := fun h => by
    rw [h] at hDr
    exact List.not_mem_nil _ hDr
  have hprune : (s.knowledge.filter (fun sen => !(decide (sen.cells = ∅))))
      = s.knowledge := filter_nonempty_id _ hall
  refine ⟨⟨s.height, s.width, s.moves_made, s.known_mines ∪ ∅,
      s.known_safes ∪ ∅, s.knowledge ++ r⟩, ?_, ?_, ?_, ?_⟩
  · simp only [passOnce]
    rw [hss, hsm]
    rw [if_pos ⟨rfl, rfl⟩]
    rw [map_sdiff_empty, reduceMines_empty]
    dsimp only
    rw [hprune]
    have hr' : deriveNew s.knowledge = some r := hr
    rw [hr']
    dsimp only
    rw [if_neg hrne]
    rfl
  · exact List.mem_append_left r hA
  · exact List.mem_append_left r hB
  · intro x hx
    rcases List.mem_append.mp hx with hx | hx
    · exact hall x hx
    · exact hrg x hx

lemma loopAux_looping : ∀ (fuel : ℕ) (s : MinesweeperAI),
    looping s → loopAux fuel s = none
  | 0, s, hs => by
      obtain ⟨s', hpass, _⟩ := passOnce_looping s hs
      simp only [loopAux]
      rw [hpass]
      simp
  | fuel + 1, s, hs => by
      obtain ⟨s', hpass, hs'⟩ := passOnce_looping s hs
      simp only [loopAux]
      rw [hpass]
      exact loopAux_looping fuel s' hs'

/-- Claim C1 (code bug): the inference fixpoint loop after evidence
ingestion does not always terminate.  On a 2×3 board, after
`add_knowledge((0,0), 1)` the call `add_knowledge((1,1), 2)` — a clue
consistent with mines at `(0,1)` and `(1,2)` — leaves the knowledge base
in a state where every pass re-derives the same subset difference
`({(0,2),(1,2)}, 1)` and sets the change flag again, so no amount of
fuel makes the loop stop. -/
theorem C1_fixpoint_diverges :
    ∀ fuel : ℕ,
      (addKnowledge 0 (MinesweeperAI.new 2 3) (0, 0) 1).bind
        (fun s => addKnowledge fuel s (1, 1) 2) = none := by
  intro fuel
  have h1 : addKnowledge 0 (MinesweeperAI.new 2 3) (0, 0) 1 =
      some ⟨2, 3, {(0,0)}, ∅, {(0,0)}, [⟨{(0,1),(1,0),(1,1)}, 1⟩]⟩ := by
    decide
  rw [h1, Option.some_bind]
  have hcore : addKnowledgeCore
      (⟨2, 3, {(0,0)}, ∅, {(0,0)}, [⟨{(0,1),(1,0),(1,1)}, 1⟩]⟩ : MinesweeperAI)
      (1, 1) 2 = some ⟨2, 3, {(0,0),(1,1)}, ∅, {(0,0),(1,1)}, [sA, sB]⟩ := by
    decide
  simp only [addKnowledge]
  rw [hcore]
  exact loopAux_looping fuel _ ⟨by decide, by decide, by decide⟩
